import Mathlib

/-!
Verification of the subtitle-language option ranker and the related helpers of
`eagle_v75_gui.py`, shallowly embedded in Lean. Python dictionaries appear as
association lists in insertion order (the builder keeps keys unique, so
association-list lookup agrees with dict lookup), Python's stable `sorted` as
stable insertion sort, the filesystem as a predicate on paths, and the float
arithmetic of the byte formatter as exact rational arithmetic.
-/

namespace EagleGui

/-- The module constant `DEFAULT_LANG_PRIORITY`. -/
def DEFAULT_LANG_PRIORITY : List String :=
  ["ja", "ko", "pl", "ru", "zh-Hans", "zh-Hant", "en", "ar"]

/-- The module constant `PREFERRED_LANGS`. -/
def PREFERRED_LANGS : List String :=
  ["ja", "ko", "pl", "ru", "zh-Hans", "zh-Hant"]

/-- The display label `f"{lang} ({kind})"` built by `add` in
`_build_language_options`. -/
def label (lang kind : String) : String := lang ++ " (" ++ kind ++ ")"

/-- The three kind strings the builder ever passes to `add`. -/
def KINDS : List String := ["Manual", "Auto", "Default"]

/-- State accumulated by the local `add` closure of `_build_language_options`:
the `options` list and the `mapping` dict. -/
structure BuildState where
  options : List String
  mapping : List (String × String × String)
deriving DecidableEq

/-- The `add(lang, kind)` closure: append the label to `options` and record the
pair in `mapping` unless the label is already a key of `mapping`. -/
def add (st : BuildState) (lang kind : String) : BuildState :=
  match st.mapping.lookup (label lang kind) with
  | some _ => st
  | none =>
      ⟨st.options ++ [label lang kind], st.mapping ++ [(label lang kind, lang, kind)]⟩

/-- The candidate `(language, kind)` pairs in emission order: the three `for`
loops of `_build_language_options`, parameterized over the default list. -/
def candidatePairs (defaults manual auto : List String) : List (String × String) :=
  manual.map (fun l => (l, "Manual")) ++ auto.map (fun l => (l, "Auto"))
    ++ defaults.map (fun l => (l, "Default"))

/-- Run the three loops of `_build_language_options` before ordering. -/
def buildRaw (cands : List (String × String)) : BuildState :=
  cands.foldl (fun st p => add st p.1 p.2) ⟨[], []⟩

/-- `kind_priority.get(kind, 3)` with
`kind_priority = {"Manual": 0, "Auto": 1, "Default": 2}`. -/
def kindPriority (kind : String) : Nat :=
  if kind = "Manual" then 0 else if kind = "Auto" then 1
  else if kind = "Default" then 2 else 3

/-- The sort key of `_order_language_labels`, parameterized over the preferred
list: `(0 if lang in PREFERRED_LANGS else 1, lang, kind_priority.get(kind, 3))`.
In the code a missing label would raise `KeyError`; the builder only sorts
labels that are keys of `mapping`, so the `none` branch is unreachable there. -/
def labelKey (preferred : List String) (mapping : List (String × String × String))
    (lab : String) : Nat × String × Nat :=
  match mapping.lookup lab with
  | some (lang, kind) =>
      ((if lang ∈ preferred then 0 else 1), lang, kindPriority kind)
  | none => (1, lab, 3)

/-- Python string `<` on character lists: strict lexicographic comparison by
code point, with a proper prefix smaller than the longer string. -/
def charListLt : List Char → List Char → Bool
  | _, [] => false
  | [], _ :: _ => true
  | a :: as, b :: bs =>
      if a.toNat < b.toNat then true
      else if b.toNat < a.toNat then false
      else charListLt as bs

/-- Python string `<`. -/
def strLt (a b : String) : Bool := charListLt a.data b.data

/-- Lexicographic comparison of sort keys: Python tuple `<=` with string
comparison by code points. -/
def keyLE (a b : Nat × String × Nat) : Bool :=
  if a.1 < b.1 then true
  else if b.1 < a.1 then false
  else if strLt a.2.1 b.2.1 then true
  else if strLt b.2.1 a.2.1 then false
  else decide (a.2.2 ≤ b.2.2)

/-- The label ordering used by `sorted(options, key=key)`, as a relation. -/
def labelLE (preferred : List String) (mapping : List (String × String × String))
    (l1 l2 : String) : Prop :=
  keyLE (labelKey preferred mapping l1) (labelKey preferred mapping l2) = true

instance (preferred : List String) (mapping : List (String × String × String)) :
    DecidableRel (labelLE preferred mapping) := fun l1 l2 =>
  instDecidableEqBool
    (keyLE (labelKey preferred mapping l1) (labelKey preferred mapping l2)) true

/-- `_order_language_labels`: Python's stable `sorted` with the tuple key,
modelled as stable insertion sort. -/
def orderLanguageLabels (preferred : List String)
    (options : List String) (mapping : List (String × String × String)) : List String :=
  List.insertionSort (labelLE preferred mapping) options

/-- `_build_language_options`, parameterized over the two fixed configuration
lists (the code reads them from the module-level constants). -/
def buildLanguageOptionsWith (defaults preferred manual auto : List String) :
    List String × List (String × String × String) :=
  let st := buildRaw (candidatePairs defaults manual auto)
  (orderLanguageLabels preferred st.options st.mapping, st.mapping)

/-- `_build_language_options` with the module constants. -/
def buildLanguageOptions (manual auto : List String) :
    List String × List (String × String × String) :=
  buildLanguageOptionsWith DEFAULT_LANG_PRIORITY PREFERRED_LANGS manual auto

/-- First-occurrence-wins deduplication with an accumulator of already-seen
pairs (specification-side description of the `add` guard). -/
def dedupSeen (seen : List (String × String)) :
    List (String × String) → List (String × String)
  | [] => []
  | p :: ps => if p ∈ seen then dedupSeen seen ps else p :: dedupSeen (p :: seen) ps

/-- First-occurrence-wins deduplication by the `(language, kind)` pair. -/
def dedupFirst (cands : List (String × String)) : List (String × String) :=
  dedupSeen [] cands

/-- `selection.split(" ")[0]`: the text before the first space. -/
def textBeforeFirstSpace (s : String) : String :=
  String.mk (s.data.takeWhile (fun c => c != ' '))

/-- The selection-to-pair resolution at the top of `_download_subtitles_worker`:
`lang_display_map.get(selection, (selection.split(" ")[0] if selection else
DEFAULT_LANG_PRIORITY[0], "Default"))`; an empty Python string is falsy. -/
def resolveSelection (mapping : List (String × String × String))
    (selection : String) : String × String :=
  match mapping.lookup selection with
  | some p => p
  | none =>
      ((if selection ≠ "" then textBeforeFirstSpace selection
        else DEFAULT_LANG_PRIORITY.getD 0 ""), "Default")

/-- The subtitle-request fields of `ydl_opts` that depend on the resolved pair. -/
structure SubtitleRequest where
  writesubtitles : Bool
  writeautomaticsub : Bool
  subtitleslangs : List String
deriving DecidableEq

/-- `manual_only = kind == "Manual"`, `auto_only = kind == "Auto"` and the
flag computation of `ydl_opts` in `_download_subtitles_worker`. -/
def subtitleRequest (lang kind : String) : SubtitleRequest :=
  let manualOnly := kind == "Manual"
  let autoOnly := kind == "Auto"
  { writesubtitles := manualOnly || kind == "Default"
    writeautomaticsub := autoOnly || kind == "Default"
    subtitleslangs := [lang] }

/-- `_resolve_srt_path`: try `f"{base}.{lang}.srt"` then `f"{base}.srt"` and
return the first existing path, the filesystem abstracted as a predicate. -/
def resolveSrtPath (ex : String → Bool) (base lang : String) : Option String :=
  List.find? ex [base ++ "." ++ lang ++ ".srt", base ++ ".srt"]

/-- Outcome of the post-download subtitle-file step of
`_download_subtitles_worker`. -/
inductive SubtitleFileOutcome where
  | statusMessage (msg : String)
  | content (text : String)
deriving DecidableEq

/-- The step of `_download_subtitles_worker` after the engine call: resolve the
`.srt` path; if none exists, report the status message instead of raising. -/
def subtitleFileStep (ex : String → Bool) (readFile : String → String)
    (base lang : String) : SubtitleFileOutcome :=
  match resolveSrtPath ex base lang with
  | none => .statusMessage "No subtitle file found after download."
  | some p => .content (readFile p)

/-- A record passed by the engine to `_progress_hook`; numeric fields may be
absent or `None`, both modelled as `none`. -/
structure ProgressRecord where
  status : String
  downloaded_bytes : Option ℚ
  total_bytes : Option ℚ
  total_bytes_estimate : Option ℚ

/-- Python `x or d` for an optional number `x`: `None` and `0` are falsy. -/
def orFalsy (x : Option ℚ) (d : ℚ) : ℚ :=
  match x with
  | none => d
  | some v => if v = 0 then d else v

/-- Python division, with `ZeroDivisionError` modelled as `none`. -/
def pyDiv (a b : ℚ) : Option ℚ := if b = 0 then none else some (a / b)

/-- The progress fraction computed by `_progress_hook` on a record whose status
is `"downloading"`: `progress = (downloaded / total) if total else 0`, where
`downloaded = status.get("downloaded_bytes") or 0` and
`total = status.get("total_bytes") or status.get("total_bytes_estimate") or 0`. -/
def hookProgress (r : ProgressRecord) : Option ℚ :=
  let downloaded := orFalsy r.downloaded_bytes 0
  let total := orFalsy r.total_bytes (orFalsy r.total_bytes_estimate 0)
  if total ≠ 0 then pyDiv downloaded total else some 0

/-- The local `units` list of `_format_bytes`. -/
def bytesUnits : List String := ["B", "KB", "MB", "GB", "TB"]

/-- The `while amount >= 1024 and index < len(units) - 1` loop of
`_format_bytes`; it terminates because `index` strictly increases towards the
bound in the guard. -/
def formatBytesLoop (amount : ℚ) (index : Nat) : ℚ × Nat :=
  if 1024 ≤ amount ∧ index < bytesUnits.length - 1 then
    formatBytesLoop (amount / 1024) (index + 1)
  else (amount, index)
termination_by bytesUnits.length - 1 - index
decreasing_by simp only [bytesUnits, List.length] at *; omega

/-- Round half to even, the rounding of Python `%.1f` formatting (exact on the
inputs considered here, where no rounding ever occurs). -/
def roundHalfEven (q : ℚ) : ℤ :=
  if q - ⌊q⌋ < 1 / 2 then ⌊q⌋
  else if 1 / 2 < q - ⌊q⌋ then ⌊q⌋ + 1
  else if ⌊q⌋ % 2 = 0 then ⌊q⌋ else ⌊q⌋ + 1

/-- `f"{amount:.1f}"` for a nonnegative amount (`_format_bytes` reaches its
formatting line only with a positive amount). -/
def formatOneDecimal (q : ℚ) : String :=
  let n := (roundHalfEven (q * 10)).toNat
  toString (n / 10) ++ "." ++ toString (n % 10)

/-- `_format_bytes` over exact rationals: the Python floats are exact for the
inputs checked here, and division by 1024 only rescales the exponent. -/
def format_bytes (amount : ℚ) : String :=
  if amount ≤ 0 then "0 B"
  else
    let r := formatBytesLoop amount 0
    formatOneDecimal r.1 ++ " " ++ bytesUnits.getD r.2 ""

/-- Length of the regex `https?://` match at the head of `cs`, if any. The two
alternatives are mutually exclusive at position 4 (`'s'` versus `':'`), so
trying the longer one first is exact backtracking semantics. -/
def matchSchemeLen (cs : List Char) : Option Nat :=
  if cs.take 8 = "https://".data then some 8
  else if cs.take 7 = "http://".data then some 7
  else none

/-- Length of a match of the compiled pattern `https?://\\S+` — scheme, one
literal backslash, then greedily one or more literal `'S'` — at the head. -/
def matchLinkLen (cs : List Char) : Option Nat :=
  match matchSchemeLen cs with
  | none => none
  | some k =>
      match cs.drop k with
      | [] => none
      | c :: rest =>
          if c = '\\' then
            if (rest.takeWhile (fun x => x == 'S')).length = 0 then none
            else some (k + 1 + (rest.takeWhile (fun x => x == 'S')).length)
          else none

/-- The `re.findall` scan: try a match at every position, emit each match and
resume right after its end. Fuel bounds the scan; every step consumes at least
one character, so fuel equal to the length of the text is enough. -/
def findAllLinks : Nat → List Char → List (List Char)
  | 0, _ => []
  | _ + 1, [] => []
  | fuel + 1, c :: cs =>
      match matchLinkLen (c :: cs) with
      | some n => (c :: cs).take n :: findAllLinks fuel ((c :: cs).drop n)
      | none => findAllLinks fuel cs

/-- `_extract_links`: `re.findall(r"https?://\\S+", content)` over the comments
pane text. -/
def extract_links (content : String) : List String :=
  (findAllLinks content.data.length content.data).map String.mk

/-! ### Order lemmas for the Python string comparison and the tuple key -/

theorem charListLt_asymm : ∀ (as bs : List Char),
    charListLt as bs = true → charListLt bs as = false
  | as, [], h => by cases as <;> simp [charListLt] at h
  | [], _ :: _, _ => by simp [charListLt]
  | a :: as, b :: bs, h => by
      simp only [charListLt] at h ⊢
      by_cases h1 : a.toNat < b.toNat
      · simp [h1, Nat.lt_asymm h1]
      · by_cases h2 : b.toNat < a.toNat
        · simp [h1, h2] at h
        · simp only [if_neg h1, if_neg h2] at h
          simp only [if_neg h2, if_neg h1]
          exact charListLt_asymm as bs h

theorem charListLt_irrefl (as : List Char) : charListLt as as = false := by
  cases h : charListLt as as
  · rfl
  · have h2 := charListLt_asymm as as h
    rw [h] at h2
    exact h2

theorem charListLt_conn : ∀ (as bs : List Char),
    charListLt as bs = false → charListLt bs as = false → as = bs
  | [], [], _, _ => rfl
  | [], _ :: _, h, _ => by simp [charListLt] at h
  | _ :: _, [], _, h => by simp [charListLt] at h
  | a :: as, b :: bs, h, h' => by
      simp only [charListLt] at h h'
      by_cases h1 : a.toNat < b.toNat
      · rw [if_pos h1] at h; cases h
      · by_cases h2 : b.toNat < a.toNat
        · rw [if_pos h2] at h'; cases h'
        · simp only [if_neg h1, if_neg h2] at h
          simp only [if_neg h2, if_neg h1] at h'
          have hab : a = b := by
            have hn : a.toNat = b.toNat := Nat.le_antisymm
              (Nat.le_of_not_lt h2) (Nat.le_of_not_lt h1)
            have := congrArg Char.ofNat hn
            rwa [Char.ofNat_toNat, Char.ofNat_toNat] at this
          rw [hab, charListLt_conn as bs h h']

theorem charListLt_trans : ∀ (as bs cs : List Char),
    charListLt as bs = true → charListLt bs cs = true → charListLt as cs = true
  | _, bs, [], _, h2 => by cases bs <;> simp [charListLt] at h2
  | as, [], _ :: _, h1, _ => by cases as <;> simp [charListLt] at h1
  | [], _ :: _, _ :: _, _, _ => by simp [charListLt]
  | a :: as, b :: bs, c :: cs, h1, h2 => by
      simp only [charListLt] at h1 h2 ⊢
      by_cases hab : a.toNat < b.toNat
      · by_cases hbc : b.toNat < c.toNat
        · rw [if_pos (by omega : a.toNat < c.toNat)]
        · by_cases hcb : c.toNat < b.toNat
          · rw [if_neg hbc, if_pos hcb] at h2; cases h2
          · rw [if_pos (by omega : a.toNat < c.toNat)]
      · by_cases hba : b.toNat < a.toNat
        · rw [if_neg hab, if_pos hba] at h1; cases h1
        · rw [if_neg hab, if_neg hba] at h1
          by_cases hbc : b.toNat < c.toNat
          · rw [if_pos (by omega : a.toNat < c.toNat)]
          · by_cases hcb : c.toNat < b.toNat
            · rw [if_neg hbc, if_pos hcb] at h2; cases h2
            · rw [if_neg hbc, if_neg hcb] at h2
              rw [if_neg (by omega : ¬ a.toNat < c.toNat),
                if_neg (by omega : ¬ c.toNat < a.toNat)]
              exact charListLt_trans as bs cs h1 h2

theorem strLt_irrefl (s : String) : strLt s s = false := charListLt_irrefl s.data

theorem strLt_asymm {s t : String} (h : strLt s t = true) : strLt t s = false :=
  charListLt_asymm s.data t.data h

theorem strLt_conn {s t : String} (h : strLt s t = false) (h' : strLt t s = false) :
    s = t := by
  cases s with
  | mk ds =>
    cases t with
    | mk dt => exact congrArg String.mk (charListLt_conn ds dt h h')

theorem strLt_trans {s t u : String} (h : strLt s t = true) (h' : strLt t u = true) :
    strLt s u = true := charListLt_trans s.data t.data u.data h h'

/-- Characterization of the tuple-key comparison. -/
theorem keyLE_iff {a b : Nat × String × Nat} :
    keyLE a b = true ↔
      a.1 < b.1 ∨ (a.1 = b.1 ∧ (strLt a.2.1 b.2.1 = true ∨
        (a.2.1 = b.2.1 ∧ a.2.2 ≤ b.2.2))) := by
  unfold keyLE
  split_ifs with h1 h2 h3 h4
  · simp [h1]
  · constructor
    · intro h; cases h
    · intro h
      rcases h with h | ⟨h, _⟩
      · exact absurd h h1
      · omega
  · have he : a.1 = b.1 := by omega
    simp [he, h3]
  · have he : a.1 = b.1 := by omega
    constructor
    · intro h; cases h
    · intro h
      rcases h with h | ⟨_, h | ⟨hs, _⟩⟩
      · omega
      · exact absurd h h3
      · rw [hs, strLt_irrefl] at h4; cases h4
  · have he : a.1 = b.1 := by omega
    rw [Bool.not_eq_true] at h3 h4
    have hs : a.2.1 = b.2.1 := strLt_conn h3 h4
    simp [he, hs, strLt_irrefl]

theorem keyLE_total (a b : Nat × String × Nat) :
    keyLE a b = true ∨ keyLE b a = true := by
  rcases Nat.lt_trichotomy a.1 b.1 with h | h | h
  · exact Or.inl (keyLE_iff.mpr (Or.inl h))
  · rcases hs : strLt a.2.1 b.2.1 with _ | _
    · rcases hs' : strLt b.2.1 a.2.1 with _ | _
      · have he : a.2.1 = b.2.1 := strLt_conn hs hs'
        rcases Nat.le_total a.2.2 b.2.2 with h2 | h2
        · exact Or.inl (keyLE_iff.mpr (Or.inr ⟨h, Or.inr ⟨he, h2⟩⟩))
        · exact Or.inr (keyLE_iff.mpr (Or.inr ⟨h.symm, Or.inr ⟨he.symm, h2⟩⟩))
      · exact Or.inr (keyLE_iff.mpr (Or.inr ⟨h.symm, Or.inl hs'⟩))
    · exact Or.inl (keyLE_iff.mpr (Or.inr ⟨h, Or.inl hs⟩))
  · exact Or.inr (keyLE_iff.mpr (Or.inl h))

theorem keyLE_trans {a b c : Nat × String × Nat}
    (h1 : keyLE a b = true) (h2 : keyLE b c = true) : keyLE a c = true := by
  rw [keyLE_iff] at h1 h2 ⊢
  rcases h1 with h1 | ⟨h1e, h1s⟩
  · rcases h2 with h2 | ⟨h2e, _⟩
    · exact Or.inl (Nat.lt_trans h1 h2)
    · exact Or.inl (h2e ▸ h1)
  · rcases h2 with h2 | ⟨h2e, h2s⟩
    · exact Or.inl (h1e ▸ h2)
    · refine Or.inr ⟨h1e.trans h2e, ?_⟩
      rcases h1s with h1s | ⟨h1eq, h1le⟩
      · rcases h2s with h2s | ⟨h2eq, _⟩
        · exact Or.inl (strLt_trans h1s h2s)
        · exact Or.inl (h2eq ▸ h1s)
      · rcases h2s with h2s | ⟨h2eq, h2le⟩
        · exact Or.inl (h1eq ▸ h2s)
        · exact Or.inr ⟨h1eq.trans h2eq, Nat.le_trans h1le h2le⟩

theorem keyLE_refl (a : Nat × String × Nat) : keyLE a a = true :=
  keyLE_iff.mpr (Or.inr ⟨rfl, Or.inr ⟨rfl, Nat.le_refl _⟩⟩)

theorem keyLE_antisymm {a b : Nat × String × Nat}
    (h1 : keyLE a b = true) (h2 : keyLE b a = true) : a = b := by
  rw [keyLE_iff] at h1 h2
  rcases h1 with h1 | ⟨h1e, h1s⟩
  · rcases h2 with h2 | ⟨h2e, _⟩
    · omega
    · omega
  · rcases h2 with h2 | ⟨h2e, h2s⟩
    · omega
    · rcases h1s with h1s | ⟨h1eq, h1le⟩
      · rcases h2s with h2s | ⟨h2eq, _⟩
        · rw [strLt_asymm h1s] at h2s; cases h2s
        · rw [h2eq, strLt_irrefl] at h1s; cases h1s
      · rcases h2s with h2s | ⟨_, h2le⟩
        · rw [h1eq, strLt_irrefl] at h2s; cases h2s
        · have he2 : a.2.2 = b.2.2 := Nat.le_antisymm h1le h2le
          exact Prod.ext h1e (Prod.ext h1eq he2)

/-! ### Label injectivity and the deduplication invariant of the builder -/

theorem str_data_inj {s t : String} (h : s.data = t.data) : s = t := by
  cases s
  cases t
  exact congrArg String.mk h

theorem append_suffix_distinct {xs ys s1 s2 : List Char} (h : xs ++ s1 = ys ++ s2)
    (h1 : ¬ s1 <:+ s2) (h2 : ¬ s2 <:+ s1) : False := by
  have hs1 : s1 <:+ xs ++ s1 := List.suffix_append xs s1
  have hs2 : s2 <:+ xs ++ s1 := by
    rw [h]
    exact List.suffix_append ys s2
  rcases List.suffix_or_suffix_of_suffix hs1 hs2 with hc | hc
  · exact h1 hc
  · exact h2 hc

/-- Labels built from the three kind strings decode unambiguously: none of the
suffixes `" (Manual)"`, `" (Auto)"`, `" (Default)"` is a suffix of another. -/
theorem label_inj {l1 k1 l2 k2 : String} (h1 : k1 ∈ KINDS) (h2 : k2 ∈ KINDS)
    (h : label l1 k1 = label l2 k2) : l1 = l2 ∧ k1 = k2 := by
  have hd := congrArg String.data h
  simp only [label, String.data_append, List.append_assoc] at hd
  simp only [KINDS, List.mem_cons, List.not_mem_nil, or_false] at h1 h2
  rcases h1 with rfl | rfl | rfl <;> rcases h2 with rfl | rfl | rfl <;>
    first
    | exact ⟨str_data_inj (List.append_cancel_right hd), rfl⟩
    | exact (append_suffix_distinct hd (by decide) (by decide)).elim

theorem mem_dedupSeen : ∀ (ps seen : List (String × String)) (q : String × String),
    q ∈ dedupSeen seen ps ↔ (q ∈ ps ∧ q ∉ seen)
  | [], seen, q => by simp [dedupSeen]
  | p :: ps, seen, q => by
      simp only [dedupSeen]
      by_cases hp : p ∈ seen
      · rw [if_pos hp, mem_dedupSeen ps seen q]
        constructor
        · rintro ⟨hq, hns⟩
          exact ⟨List.mem_cons_of_mem p hq, hns⟩
        · rintro ⟨hq, hns⟩
          rcases List.mem_cons.mp hq with rfl | hq'
          · exact absurd hp hns
          · exact ⟨hq', hns⟩
      · rw [if_neg hp]
        constructor
        · intro hq
          rcases List.mem_cons.mp hq with rfl | hq'
          · exact ⟨List.mem_cons_self _ _, hp⟩
          · obtain ⟨hmem, hns⟩ := (mem_dedupSeen ps (p :: seen) q).mp hq'
            refine ⟨List.mem_cons_of_mem p hmem, ?_⟩
            intro hs
            exact hns (List.mem_cons_of_mem p hs)
        · rintro ⟨hq, hns⟩
          rcases List.mem_cons.mp hq with rfl | hq'
          · exact List.mem_cons_self q _
          · by_cases hqp : q = p
            · exact hqp ▸ List.mem_cons_self p _
            · refine List.mem_cons_of_mem p ((mem_dedupSeen ps (p :: seen) q).mpr ⟨hq', ?_⟩)
              intro hc
              rcases List.mem_cons.mp hc with hc' | hc'
              · exact hqp hc'
              · exact hns hc'

theorem dedupSeen_nodup : ∀ (ps seen : List (String × String)),
    (dedupSeen seen ps).Nodup
  | [], _ => by simp [dedupSeen]
  | p :: ps, seen => by
      simp only [dedupSeen]
      by_cases hp : p ∈ seen
      · rw [if_pos hp]
        exact dedupSeen_nodup ps seen
      · rw [if_neg hp, List.nodup_cons]
        refine ⟨?_, dedupSeen_nodup ps (p :: seen)⟩
        intro hmem
        exact ((mem_dedupSeen ps (p :: seen) p).mp hmem).2 (List.mem_cons_self p seen)

theorem lookup_singleton_isSome {β : Type} {k k0 : String} {v : β} :
    ((([(k0, v)]) : List (String × β)).lookup k).isSome = true ↔ k = k0 := by
  rw [List.lookup_cons]
  cases hbe : k == k0
  · show (List.lookup k ([] : List (String × β))).isSome = true ↔ k = k0
    simp only [List.lookup_nil, Option.isSome_none]
    constructor
    · intro hs
      cases hs
    · intro he
      rw [he, beq_self_eq_true] at hbe
      cases hbe
  · show (some v).isSome = true ↔ k = k0
    simp only [Option.isSome_some]
    constructor
    · intro _
      exact eq_of_beq hbe
    · intro _
      trivial

theorem candidatePairs_kinds (defaults manual auto : List String) :
    ∀ p ∈ candidatePairs defaults manual auto, p.2 ∈ KINDS := by
  intro p hp
  simp only [candidatePairs, List.mem_append, List.mem_map] at hp
  rcases hp with (⟨l, _, rfl⟩ | ⟨l, _, rfl⟩) | ⟨l, _, rfl⟩ <;> simp [KINDS]

/-- Invariant of the three `add` loops: starting from a state whose mapping
contains exactly the labels of the pairs in `seen`, folding `add` over the
candidates appends exactly the first-occurrence-wins deduplicated candidates,
to the options as labels and to the mapping as label-keyed entries. -/
theorem foldl_add_spec : ∀ (cands : List (String × String)) (st : BuildState)
    (seen : List (String × String)),
    (∀ p ∈ cands, p.2 ∈ KINDS) →
    (∀ lang kind, kind ∈ KINDS →
      ((st.mapping.lookup (label lang kind)).isSome ↔ (lang, kind) ∈ seen)) →
    (List.foldl (fun st p => add st p.1 p.2) st cands).options
        = st.options ++ (dedupSeen seen cands).map (fun p => label p.1 p.2)
    ∧ (List.foldl (fun st p => add st p.1 p.2) st cands).mapping
        = st.mapping ++ (dedupSeen seen cands).map (fun p => (label p.1 p.2, p.1, p.2))
  | [], st, seen, _, _ => by simp [dedupSeen]
  | p :: ps, st, seen, hk, hinv => by
      have hpk : p.2 ∈ KINDS := hk p (List.mem_cons_self p ps)
      have hps : ∀ q ∈ ps, q.2 ∈ KINDS := fun q hq => hk q (List.mem_cons_of_mem p hq)
      simp only [List.foldl_cons, dedupSeen]
      by_cases hp : p ∈ seen
      · rw [if_pos hp]
        have hsome : (st.mapping.lookup (label p.1 p.2)).isSome :=
          (hinv p.1 p.2 hpk).mpr hp
        have hadd : add st p.1 p.2 = st := by
          unfold add
          rcases ho : st.mapping.lookup (label p.1 p.2) with _ | v
          · rw [ho] at hsome
            simp at hsome
          · rfl
        rw [hadd]
        exact foldl_add_spec ps st seen hps hinv
      · rw [if_neg hp]
        have hnone : st.mapping.lookup (label p.1 p.2) = none := by
          rcases ho : st.mapping.lookup (label p.1 p.2) with _ | v
          · rfl
          · have : (st.mapping.lookup (label p.1 p.2)).isSome := by
              rw [ho]; rfl
            exact absurd ((hinv p.1 p.2 hpk).mp this) hp
        have hadd : add st p.1 p.2
            = ⟨st.options ++ [label p.1 p.2], st.mapping ++ [(label p.1 p.2, p.1, p.2)]⟩ := by
          unfold add
          rw [hnone]
        have hinv' : ∀ lang kind, kind ∈ KINDS →
            (((st.mapping ++ [(label p.1 p.2, p.1, p.2)]).lookup (label lang kind)).isSome
              ↔ (lang, kind) ∈ p :: seen) := by
          intro lang kind hkind
          rw [List.lookup_append, Option.isSome_or]
          simp only [Bool.or_eq_true, List.mem_cons]
          constructor
          · rintro (hs | hs)
            · exact Or.inr ((hinv lang kind hkind).mp hs)
            · have heq : label lang kind = label p.1 p.2 := lookup_singleton_isSome.mp hs
              obtain ⟨he1, he2⟩ := label_inj hkind hpk heq
              exact Or.inl (by rw [he1, he2])
          · rintro (hs | hs)
            · refine Or.inr (lookup_singleton_isSome.mpr ?_)
              rw [show lang = p.1 from congrArg Prod.fst hs,
                show kind = p.2 from congrArg Prod.snd hs]
            · exact Or.inl ((hinv lang kind hkind).mpr hs)
        obtain ⟨ho, hm⟩ := foldl_add_spec ps
          ⟨st.options ++ [label p.1 p.2], st.mapping ++ [(label p.1 p.2, p.1, p.2)]⟩
          (p :: seen) hps hinv'
        rw [hadd]
        refine ⟨?_, ?_⟩
        · rw [ho]
          simp [List.append_assoc]
        · rw [hm]
          simp [List.append_assoc]

/-- The raw options are exactly the labels of the first-occurrence-wins
deduplicated candidates. -/
theorem buildRaw_options (cands : List (String × String))
    (hk : ∀ p ∈ cands, p.2 ∈ KINDS) :
    (buildRaw cands).options = (dedupFirst cands).map (fun p => label p.1 p.2) := by
  have h := foldl_add_spec cands ⟨[], []⟩ [] hk (by intro lang kind _; simp)
  simpa [buildRaw, dedupFirst] using h.1

/-- The mapping records exactly the deduplicated candidates, keyed by label. -/
theorem buildRaw_mapping (cands : List (String × String))
    (hk : ∀ p ∈ cands, p.2 ∈ KINDS) :
    (buildRaw cands).mapping
      = (dedupFirst cands).map (fun p => (label p.1 p.2, p.1, p.2)) := by
  have h := foldl_add_spec cands ⟨[], []⟩ [] hk (by intro lang kind _; simp)
  simpa [buildRaw, dedupFirst] using h.2

theorem lookup_mem {β : Type} {l : List (String × β)} {k : String} {v : β}
    (h : l.lookup k = some v) : (k, v) ∈ l := by
  obtain ⟨l₁, l₂, rfl, _⟩ := List.lookup_eq_some_iff.mp h
  exact List.mem_append_cons_self

theorem lookup_of_mem_of_nodup_keys {β : Type} :
    ∀ {l : List (String × β)} {k : String} {v : β},
      (l.map Prod.fst).Nodup → (k, v) ∈ l → l.lookup k = some v := by
  intro l
  induction l with
  | nil =>
      intro k v _ h
      cases h
  | cons e es ih =>
      intro k v hnd hmem
      obtain ⟨k0, v0⟩ := e
      rcases List.mem_cons.mp hmem with he | hmem'
      · rw [show k = k0 from congrArg Prod.fst he, show v = v0 from congrArg Prod.snd he]
        exact List.lookup_cons_self
      · rw [List.lookup_cons]
        have hk0 : k0 ∉ es.map Prod.fst := (List.nodup_cons.mp hnd).1
        cases hbe : k == k0
        · show es.lookup k = some v
          exact ih (List.nodup_cons.mp hnd).2 hmem'
        · exfalso
          have hke : k = k0 := eq_of_beq hbe
          refine hk0 ?_
          rw [← hke]
          exact List.mem_map.mpr ⟨(k, v), hmem', rfl⟩

theorem dedupFirst_kinds {cands : List (String × String)}
    (hk : ∀ p ∈ cands, p.2 ∈ KINDS) :
    ∀ p ∈ dedupFirst cands, p.2 ∈ KINDS := by
  intro p hp
  exact hk p ((mem_dedupSeen cands [] p).mp hp).1

theorem buildRaw_keys_nodup (cands : List (String × String))
    (hk : ∀ p ∈ cands, p.2 ∈ KINDS) :
    ((buildRaw cands).mapping.map Prod.fst).Nodup := by
  rw [buildRaw_mapping cands hk, List.map_map]
  refine List.Nodup.map_on ?_ (dedupSeen_nodup cands [])
  intro x hx y hy hxy
  obtain ⟨h1, h2⟩ := label_inj (dedupFirst_kinds hk x hx) (dedupFirst_kinds hk y hy) hxy
  exact Prod.ext h1 h2

/-- Characterization of dictionary lookups in the built mapping. -/
theorem buildRaw_lookup_iff (cands : List (String × String))
    (hk : ∀ p ∈ cands, p.2 ∈ KINDS) (lab : String) (p : String × String) :
    (buildRaw cands).mapping.lookup lab = some p
      ↔ (p ∈ dedupFirst cands ∧ lab = label p.1 p.2) := by
  constructor
  · intro h
    have hmem := lookup_mem h
    rw [buildRaw_mapping cands hk] at hmem
    obtain ⟨q, hq, he⟩ := List.mem_map.mp hmem
    have hq1 : label q.1 q.2 = lab := congrArg Prod.fst he
    have hq2 : (q.1, q.2) = p := congrArg Prod.snd he
    refine ⟨?_, ?_⟩
    · rw [← hq2]
      exact hq
    · rw [← hq1, ← hq2]
  · rintro ⟨hp, rfl⟩
    refine lookup_of_mem_of_nodup_keys (buildRaw_keys_nodup cands hk) ?_
    rw [buildRaw_mapping cands hk]
    exact List.mem_map.mpr ⟨p, hp, rfl⟩

theorem buildRaw_mem_options_iff (cands : List (String × String))
    (hk : ∀ p ∈ cands, p.2 ∈ KINDS) (lab : String) :
    lab ∈ (buildRaw cands).options ↔ ∃ p ∈ dedupFirst cands, lab = label p.1 p.2 := by
  rw [buildRaw_options cands hk]
  simp only [List.mem_map]
  constructor
  · rintro ⟨p, hp, rfl⟩
    exact ⟨p, hp, rfl⟩
  · rintro ⟨p, hp, rfl⟩
    exact ⟨p, hp, rfl⟩

/-! ### The sorting pass -/

theorem labelLE_total (preferred : List String)
    (mapping : List (String × String × String)) (l1 l2 : String) :
    labelLE preferred mapping l1 l2 ∨ labelLE preferred mapping l2 l1 :=
  keyLE_total _ _

theorem labelLE_trans' {preferred : List String}
    {mapping : List (String × String × String)} {a b c : String}
    (h1 : labelLE preferred mapping a b) (h2 : labelLE preferred mapping b c) :
    labelLE preferred mapping a c :=
  keyLE_trans h1 h2

theorem kindPriority_le_two {k : String} (h : k ∈ KINDS) : kindPriority k ≤ 2 := by
  simp only [KINDS, List.mem_cons, List.not_mem_nil, or_false] at h
  rcases h with rfl | rfl | rfl <;> simp [kindPriority]

theorem kindPriority_inj {k1 k2 : String} (h1 : k1 ∈ KINDS) (h2 : k2 ∈ KINDS)
    (h : kindPriority k1 = kindPriority k2) : k1 = k2 := by
  simp only [KINDS, List.mem_cons, List.not_mem_nil, or_false] at h1 h2
  rcases h1 with rfl | rfl | rfl <;> rcases h2 with rfl | rfl | rfl <;>
    first
    | rfl
    | simp [kindPriority] at h

/-- On a well-formed mapping (keys decode to their stored pair, kinds among the
three), the label ordering is antisymmetric. -/
theorem labelLE_antisymm {preferred : List String}
    {mapping : List (String × String × String)}
    (hwf : ∀ e ∈ mapping, e.1 = label e.2.1 e.2.2 ∧ e.2.2 ∈ KINDS)
    {l1 l2 : String} (h1 : labelLE preferred mapping l1 l2)
    (h2 : labelLE preferred mapping l2 l1) : l1 = l2 := by
  have hk := keyLE_antisymm h1 h2
  rcases ho1 : mapping.lookup l1 with _ | p1 <;>
    rcases ho2 : mapping.lookup l2 with _ | p2 <;>
      simp only [labelKey, ho1, ho2] at hk
  · exact congrArg (fun k => k.2.1) hk
  · have hw2 := hwf (l2, p2) (lookup_mem ho2)
    dsimp only at hw2
    have h3 := congrArg (fun k => k.2.2) hk
    dsimp only at h3
    have := kindPriority_le_two hw2.2
    omega
  · have hw1 := hwf (l1, p1) (lookup_mem ho1)
    dsimp only at hw1
    have h3 := congrArg (fun k => k.2.2) hk
    dsimp only at h3
    have := kindPriority_le_two hw1.2
    omega
  · have hw1 := hwf (l1, p1) (lookup_mem ho1)
    have hw2 := hwf (l2, p2) (lookup_mem ho2)
    dsimp only at hw1 hw2
    have hlang : p1.1 = p2.1 := congrArg (fun k => k.2.1) hk
    have hkp : kindPriority p1.2 = kindPriority p2.2 := congrArg (fun k => k.2.2) hk
    have hkind : p1.2 = p2.2 := kindPriority_inj hw1.2 hw2.2 hkp
    rw [hw1.1, hw2.1, hlang, hkind]

theorem orderLanguageLabels_sorted (preferred : List String) (options : List String)
    (mapping : List (String × String × String)) :
    List.Sorted (labelLE preferred mapping)
      (orderLanguageLabels preferred options mapping) := by
  haveI : IsTotal String (labelLE preferred mapping) := ⟨labelLE_total preferred mapping⟩
  haveI : IsTrans String (labelLE preferred mapping) :=
    ⟨fun _ _ _ h1 h2 => labelLE_trans' h1 h2⟩
  exact List.sorted_insertionSort _ _

theorem orderLanguageLabels_perm (preferred : List String) (options : List String)
    (mapping : List (String × String × String)) :
    (orderLanguageLabels preferred options mapping).Perm options :=
  List.perm_insertionSort _ _

theorem buildRaw_options_nodup (cands : List (String × String))
    (hk : ∀ p ∈ cands, p.2 ∈ KINDS) : (buildRaw cands).options.Nodup := by
  rw [buildRaw_options cands hk]
  refine List.Nodup.map_on ?_ (dedupSeen_nodup cands [])
  intro x hx y hy hxy
  obtain ⟨h1, h2⟩ := label_inj (dedupFirst_kinds hk x hx) (dedupFirst_kinds hk y hy) hxy
  exact Prod.ext h1 h2

theorem buildRaw_mapping_wf (cands : List (String × String))
    (hk : ∀ p ∈ cands, p.2 ∈ KINDS) :
    ∀ e ∈ (buildRaw cands).mapping, e.1 = label e.2.1 e.2.2 ∧ e.2.2 ∈ KINDS := by
  intro e he
  rw [buildRaw_mapping cands hk] at he
  obtain ⟨q, hq, rfl⟩ := List.mem_map.mp he
  exact ⟨rfl, dedupFirst_kinds hk q hq⟩

/-! ### Claim theorems -/

/-- C1: for every manual and automatic subtitle-language map, the ranker
builds candidates `(language, Manual)` from the manual map, `(language, Auto)`
from the automatic map and `(language, Default)` from the fixed default list,
deduplicates them by the `(language, kind)` pair (first occurrence wins, later
duplicates dropped silently), and sorts the survivors by the key
`(0 if preferred else 1, language ascending, kind rank Manual < Auto <
Default)`; consequently every preferred-language entry precedes every
non-preferred entry, and within one language Manual precedes Auto precedes
Default. -/
theorem ranker_builds_dedups_sorts (manual auto : List String) :
    (buildRaw (candidatePairs DEFAULT_LANG_PRIORITY manual auto)).options
        = (dedupFirst (candidatePairs DEFAULT_LANG_PRIORITY manual auto)).map
            (fun p => label p.1 p.2)
    ∧ (buildLanguageOptions manual auto).1.Perm
        (buildRaw (candidatePairs DEFAULT_LANG_PRIORITY manual auto)).options
    ∧ List.Sorted (labelLE PREFERRED_LANGS (buildLanguageOptions manual auto).2)
        (buildLanguageOptions manual auto).1
    ∧ List.Pairwise
        (fun l1 l2 => ∀ p q : String × String,
          (buildLanguageOptions manual auto).2.lookup l1 = some p →
          (buildLanguageOptions manual auto).2.lookup l2 = some q →
          (q.1 ∈ PREFERRED_LANGS → p.1 ∈ PREFERRED_LANGS)
            ∧ (p.1 = q.1 → kindPriority p.2 ≤ kindPriority q.2))
        (buildLanguageOptions manual auto).1 := by
  have hk := candidatePairs_kinds DEFAULT_LANG_PRIORITY manual auto
  refine ⟨buildRaw_options _ hk, orderLanguageLabels_perm _ _ _,
    orderLanguageLabels_sorted _ _ _, ?_⟩
  have hs : List.Sorted (labelLE PREFERRED_LANGS (buildLanguageOptions manual auto).2)
      (buildLanguageOptions manual auto).1 := orderLanguageLabels_sorted _ _ _
  refine List.Pairwise.imp ?_ hs
  intro l1 l2 hle p q hp hq
  have hkle : keyLE (labelKey PREFERRED_LANGS (buildLanguageOptions manual auto).2 l1)
      (labelKey PREFERRED_LANGS (buildLanguageOptions manual auto).2 l2) = true := hle
  simp only [labelKey, hp, hq] at hkle
  rw [keyLE_iff] at hkle
  dsimp only at hkle
  constructor
  · intro hq1
    by_cases hp1 : p.1 ∈ PREFERRED_LANGS
    · exact hp1
    · exfalso
      rw [if_neg hp1, if_pos hq1] at hkle
      rcases hkle with h | ⟨he, _⟩
      · omega
      · omega
  · intro heq
    rcases hkle with h | ⟨_, hs' | ⟨_, hkp⟩⟩
    · rw [heq] at h
      exact absurd h (lt_irrefl _)
    · rw [heq, strLt_irrefl] at hs'
      cases hs'
    · exact hkp

/-- C2 counterexample: on the spec's example inputs the ranker's display order
is not the five-element list the spec expects (the entry "ja (Default)" also
survives deduplication, since its kind differs from Manual and Auto). -/
theorem spec_example_order_counterexample :
    (buildLanguageOptionsWith ["ja", "ko", "en"] ["ja", "ko"] ["ja"] ["ja", "en"]).1
      ≠ ["ja (Manual)", "ja (Auto)", "ko (Default)", "en (Auto)", "en (Default)"] := by
  decide

/-- C2 amended: on manual = {"ja"}, auto = {"ja", "en"}, defaults =
["ja", "ko", "en"], preferred = {"ja", "ko"}, the ranker produces exactly
"ja (Manual)", "ja (Auto)", "ja (Default)", "ko (Default)", "en (Auto)",
"en (Default)". -/
theorem spec_example_order :
    (buildLanguageOptionsWith ["ja", "ko", "en"] ["ja", "ko"] ["ja"] ["ja", "en"]).1
      = ["ja (Manual)", "ja (Auto)", "ja (Default)", "ko (Default)",
         "en (Auto)", "en (Default)"] := by
  decide

/-- C3: every option the ranker displays carries the label
`"<language> (<kind>)"` built from its own pair, and resolving any label
recorded at ranking time through the table returns exactly the pair used to
build it. -/
theorem label_round_trip (manual auto : List String) :
    (∀ lab ∈ (buildLanguageOptions manual auto).1,
      ∃ p : String × String,
        (buildLanguageOptions manual auto).2.lookup lab = some p
          ∧ lab = label p.1 p.2)
    ∧ (∀ lab lang kind, (lab, lang, kind) ∈ (buildLanguageOptions manual auto).2 →
        lab = label lang kind
          ∧ (buildLanguageOptions manual auto).2.lookup lab = some (lang, kind)) := by
  have hk := candidatePairs_kinds DEFAULT_LANG_PRIORITY manual auto
  have hm : (buildLanguageOptions manual auto).2
      = (buildRaw (candidatePairs DEFAULT_LANG_PRIORITY manual auto)).mapping := rfl
  constructor
  · intro lab hlab
    have hlab' : lab ∈ (buildRaw (candidatePairs DEFAULT_LANG_PRIORITY manual auto)).options :=
      (orderLanguageLabels_perm _ _ _).subset hlab
    obtain ⟨p, hp, rfl⟩ := (buildRaw_mem_options_iff _ hk _).mp hlab'
    refine ⟨p, ?_, rfl⟩
    rw [hm]
    exact (buildRaw_lookup_iff _ hk _ p).mpr ⟨hp, rfl⟩
  · intro lab lang kind hmem
    rw [hm] at hmem
    rw [buildRaw_mapping _ hk] at hmem
    obtain ⟨q, hq, he⟩ := List.mem_map.mp hmem
    have e1 : label q.1 q.2 = lab := congrArg Prod.fst he
    have e2 : q.1 = lang := by
      have := congrArg (fun x => x.2.1) he
      simpa using this
    have e3 : q.2 = kind := by
      have := congrArg (fun x => x.2.2) he
      simpa using this
    constructor
    · rw [← e1, e2, e3]
    · rw [hm]
      refine (buildRaw_lookup_iff _ hk _ (lang, kind)).mpr ⟨?_, ?_⟩
      · rw [← e2, ← e3]
        exact hq
      · rw [← e1, e2, e3]

/-- C3 witness: the round trip at a concrete table entry. -/
theorem label_round_trip_witness :
    "ja (Default)" = label "ja" "Default"
      ∧ (buildLanguageOptions [] []).2.lookup "ja (Default)" = some ("ja", "Default") :=
  (label_round_trip [] []).2 "ja (Default)" "ja" "Default" (by decide)

/-- C4 counterexample: the empty string is a selection with no entry in the
ranking table, yet it resolves to the first default language "ja" rather than
to the text before its first space (the empty string). -/
theorem resolve_unknown_empty_counterexample :
    (buildLanguageOptions [] []).2.lookup "" = none
    ∧ resolveSelection (buildLanguageOptions [] []).2 "" = ("ja", "Default")
    ∧ resolveSelection (buildLanguageOptions [] []).2 ""
        ≠ (textBeforeFirstSpace "", "Default") := by
  decide

/-- C4 amended: a non-empty selection absent from the table resolves, without
raising, to the text before its first space paired with "Default"; the empty
selection resolves to the first entry of the default language list paired with
"Default". -/
theorem resolve_unknown_fallback (mapping : List (String × String × String))
    (selection : String) (h : mapping.lookup selection = none) :
    (selection ≠ "" →
      resolveSelection mapping selection = (textBeforeFirstSpace selection, "Default"))
    ∧ (selection = "" →
      resolveSelection mapping selection = (DEFAULT_LANG_PRIORITY.getD 0 "", "Default")) := by
  simp only [resolveSelection, h]
  constructor
  · intro hne
    rw [if_pos hne]
  · intro he
    rw [if_neg (fun hc => hc he)]

/-- C4 witness: a stale non-empty label resolves to its first word. -/
theorem resolve_unknown_fallback_witness :
    resolveSelection [] "xx yy" = ("xx", "Default") := by
  have h := (resolve_unknown_fallback [] "xx yy" (by decide)).1 (by decide)
  rw [h]
  decide

/-- C5: kind Manual requests human-authored tracks only (manual flag true,
automatic flag false), Auto requests machine-generated tracks only, Default
sets both flags, always with the single resolved language in the request list;
and every pair resolved through the builder's table has one of these three
kinds. -/
theorem download_kind_flags (manual auto : List String) (selection : String) :
    (∀ lang, subtitleRequest lang "Manual"
        = ⟨true, false, [lang]⟩)
    ∧ (∀ lang, subtitleRequest lang "Auto" = ⟨false, true, [lang]⟩)
    ∧ (∀ lang, subtitleRequest lang "Default" = ⟨true, true, [lang]⟩)
    ∧ (resolveSelection (buildLanguageOptions manual auto).2 selection).2 ∈ KINDS := by
  refine ⟨fun lang => rfl, fun lang => rfl, fun lang => rfl, ?_⟩
  unfold resolveSelection
  rcases ho : (buildLanguageOptions manual auto).2.lookup selection with _ | p
  · simp [KINDS]
  · have hk := candidatePairs_kinds DEFAULT_LANG_PRIORITY manual auto
    have hm : (buildLanguageOptions manual auto).2
        = (buildRaw (candidatePairs DEFAULT_LANG_PRIORITY manual auto)).mapping := rfl
    rw [hm] at ho
    exact dedupFirst_kinds hk p ((buildRaw_lookup_iff _ hk selection p).mp ho).1

/-- C6: the display order is a deterministic function of the two maps as key
sets: invocations on maps with identical key membership (regardless of
insertion order) produce identical output order. -/
theorem ranker_deterministic (manual1 auto1 manual2 auto2 : List String)
    (hm : ∀ x, x ∈ manual1 ↔ x ∈ manual2) (ha : ∀ x, x ∈ auto1 ↔ x ∈ auto2) :
    (buildLanguageOptions manual1 auto1).1 = (buildLanguageOptions manual2 auto2).1 := by
  have hk1 := candidatePairs_kinds DEFAULT_LANG_PRIORITY manual1 auto1
  have hk2 := candidatePairs_kinds DEFAULT_LANG_PRIORITY manual2 auto2
  have hc : ∀ q, q ∈ candidatePairs DEFAULT_LANG_PRIORITY manual1 auto1
      ↔ q ∈ candidatePairs DEFAULT_LANG_PRIORITY manual2 auto2 := by
    intro q
    simp only [candidatePairs, List.mem_append, List.mem_map]
    constructor
    · rintro ((⟨l, hl, rfl⟩ | ⟨l, hl, rfl⟩) | ⟨l, hl, rfl⟩)
      · exact Or.inl (Or.inl ⟨l, (hm l).mp hl, rfl⟩)
      · exact Or.inl (Or.inr ⟨l, (ha l).mp hl, rfl⟩)
      · exact Or.inr ⟨l, hl, rfl⟩
    · rintro ((⟨l, hl, rfl⟩ | ⟨l, hl, rfl⟩) | ⟨l, hl, rfl⟩)
      · exact Or.inl (Or.inl ⟨l, (hm l).mpr hl, rfl⟩)
      · exact Or.inl (Or.inr ⟨l, (ha l).mpr hl, rfl⟩)
      · exact Or.inr ⟨l, hl, rfl⟩
  have hd : ∀ q, q ∈ dedupFirst (candidatePairs DEFAULT_LANG_PRIORITY manual1 auto1)
      ↔ q ∈ dedupFirst (candidatePairs DEFAULT_LANG_PRIORITY manual2 auto2) := by
    intro q
    rw [dedupFirst, dedupFirst, mem_dedupSeen, mem_dedupSeen]
    simp [hc q]
  have hlk : ∀ lab,
      (buildRaw (candidatePairs DEFAULT_LANG_PRIORITY manual1 auto1)).mapping.lookup lab
        = (buildRaw (candidatePairs DEFAULT_LANG_PRIORITY manual2 auto2)).mapping.lookup lab := by
    intro lab
    rcases h1 : (buildRaw (candidatePairs DEFAULT_LANG_PRIORITY manual1 auto1)).mapping.lookup lab
      with _ | p
    · rcases h2 : (buildRaw (candidatePairs DEFAULT_LANG_PRIORITY manual2 auto2)).mapping.lookup lab
        with _ | p
      · rfl
      · exfalso
        obtain ⟨hp2, hlab⟩ := (buildRaw_lookup_iff _ hk2 lab p).mp h2
        have hs := (buildRaw_lookup_iff _ hk1 lab p).mpr ⟨(hd p).mpr hp2, hlab⟩
        rw [h1] at hs
        cases hs
    · obtain ⟨hp1, hlab⟩ := (buildRaw_lookup_iff _ hk1 lab p).mp h1
      exact ((buildRaw_lookup_iff _ hk2 lab p).mpr ⟨(hd p).mp hp1, hlab⟩).symm
  have hkey : ∀ lab,
      labelKey PREFERRED_LANGS
          (buildRaw (candidatePairs DEFAULT_LANG_PRIORITY manual1 auto1)).mapping lab
        = labelKey PREFERRED_LANGS
            (buildRaw (candidatePairs DEFAULT_LANG_PRIORITY manual2 auto2)).mapping lab := by
    intro lab
    unfold labelKey
    rw [hlk lab]
  have hperm : (buildRaw (candidatePairs DEFAULT_LANG_PRIORITY manual1 auto1)).options.Perm
      (buildRaw (candidatePairs DEFAULT_LANG_PRIORITY manual2 auto2)).options := by
    rw [List.perm_ext_iff_of_nodup (buildRaw_options_nodup _ hk1) (buildRaw_options_nodup _ hk2)]
    intro lab
    rw [buildRaw_mem_options_iff _ hk1, buildRaw_mem_options_iff _ hk2]
    constructor
    · rintro ⟨p, hp, rfl⟩
      exact ⟨p, (hd p).mp hp, rfl⟩
    · rintro ⟨p, hp, rfl⟩
      exact ⟨p, (hd p).mpr hp, rfl⟩
  have hwf1 := buildRaw_mapping_wf _ hk1
  haveI : IsAntisymm String (labelLE PREFERRED_LANGS
      (buildRaw (candidatePairs DEFAULT_LANG_PRIORITY manual1 auto1)).mapping) :=
    ⟨fun _ _ h1 h2 => labelLE_antisymm hwf1 h1 h2⟩
  have hsorted1 : List.Sorted (labelLE PREFERRED_LANGS
      (buildRaw (candidatePairs DEFAULT_LANG_PRIORITY manual1 auto1)).mapping)
      (buildLanguageOptions manual1 auto1).1 := orderLanguageLabels_sorted _ _ _
  have hsorted2 : List.Sorted (labelLE PREFERRED_LANGS
      (buildRaw (candidatePairs DEFAULT_LANG_PRIORITY manual1 auto1)).mapping)
      (buildLanguageOptions manual2 auto2).1 := by
    have h2 : List.Sorted (labelLE PREFERRED_LANGS
        (buildRaw (candidatePairs DEFAULT_LANG_PRIORITY manual2 auto2)).mapping)
        (buildLanguageOptions manual2 auto2).1 := orderLanguageLabels_sorted _ _ _
    refine List.Pairwise.imp ?_ h2
    intro a b hab
    have : keyLE (labelKey PREFERRED_LANGS
        (buildRaw (candidatePairs DEFAULT_LANG_PRIORITY manual2 auto2)).mapping a)
        (labelKey PREFERRED_LANGS
          (buildRaw (candidatePairs DEFAULT_LANG_PRIORITY manual2 auto2)).mapping b)
        = true := hab
    show keyLE (labelKey PREFERRED_LANGS
        (buildRaw (candidatePairs DEFAULT_LANG_PRIORITY manual1 auto1)).mapping a)
        (labelKey PREFERRED_LANGS
          (buildRaw (candidatePairs DEFAULT_LANG_PRIORITY manual1 auto1)).mapping b)
        = true
    rw [hkey a, hkey b]
    exact this
  have hperm' : (buildLanguageOptions manual1 auto1).1.Perm
      (buildLanguageOptions manual2 auto2).1 :=
    ((orderLanguageLabels_perm PREFERRED_LANGS
        (buildRaw (candidatePairs DEFAULT_LANG_PRIORITY manual1 auto1)).options
        (buildRaw (candidatePairs DEFAULT_LANG_PRIORITY manual1 auto1)).mapping).trans
      hperm).trans
      (orderLanguageLabels_perm PREFERRED_LANGS
        (buildRaw (candidatePairs DEFAULT_LANG_PRIORITY manual2 auto2)).options
        (buildRaw (candidatePairs DEFAULT_LANG_PRIORITY manual2 auto2)).mapping).symm
  exact List.eq_of_perm_of_sorted hperm' hsorted1 hsorted2

/-- C6 witness: the same manual key set in two insertion orders yields the
same display order. -/
theorem ranker_deterministic_witness :
    (buildLanguageOptions ["ja", "en"] []).1 = (buildLanguageOptions ["en", "ja"] []).1 := by
  refine ranker_deterministic ["ja", "en"] [] ["en", "ja"] [] ?_ ?_
  · intro x
    simp only [List.mem_cons, List.not_mem_nil, or_false]
    tauto
  · intro x
    exact Iff.rfl

/-- C7: after a download attempt the subtitle file is located by checking
`<base>.<lang>.srt` first and `<base>.srt` second; when neither exists, the
worker reports the human-readable "no subtitle file found" status message and
raises no exception. -/
theorem srt_lookup_order_and_missing (ex : String → Bool) (readFile : String → String)
    (base lang : String) :
    resolveSrtPath ex base lang
        = (if ex (base ++ "." ++ lang ++ ".srt")
            then some (base ++ "." ++ lang ++ ".srt")
           else if ex (base ++ ".srt") then some (base ++ ".srt") else none)
    ∧ (ex (base ++ "." ++ lang ++ ".srt") = false → ex (base ++ ".srt") = false →
        subtitleFileStep ex readFile base lang
          = SubtitleFileOutcome.statusMessage "No subtitle file found after download.") := by
  have hfind : resolveSrtPath ex base lang
      = (if ex (base ++ "." ++ lang ++ ".srt")
          then some (base ++ "." ++ lang ++ ".srt")
         else if ex (base ++ ".srt") then some (base ++ ".srt") else none) := by
    unfold resolveSrtPath
    cases h1 : ex (base ++ "." ++ lang ++ ".srt") <;> cases h2 : ex (base ++ ".srt") <;>
      simp [List.find?, h1, h2]
  refine ⟨hfind, ?_⟩
  intro h1 h2
  unfold subtitleFileStep
  rw [hfind, if_neg (by simp [h1]), if_neg (by simp [h2])]

/-- C7 witness: with an empty filesystem the worker reports the status
message. -/
theorem srt_lookup_order_and_missing_witness :
    subtitleFileStep (fun _ => false) (fun _ => "") "t" "ja"
      = SubtitleFileOutcome.statusMessage "No subtitle file found after download." :=
  (srt_lookup_order_and_missing (fun _ => false) (fun _ => "") "t" "ja").2 rfl rfl

/-- C9: the progress hook divides only by a nonzero resolved total; when both
totals are absent, None, or zero, the progress fraction is 0 and no
ZeroDivisionError is raised. -/
theorem progress_no_div_by_zero (r : ProgressRecord) :
    (hookProgress r).isSome = true
    ∧ ((r.total_bytes = none ∨ r.total_bytes = some 0) →
       (r.total_bytes_estimate = none ∨ r.total_bytes_estimate = some 0) →
       hookProgress r = some 0) := by
  have key : ∀ t d : ℚ, (if t ≠ 0 then pyDiv d t else some 0).isSome = true := by
    intro t d
    by_cases ht : t ≠ 0
    · rw [if_pos ht]
      unfold pyDiv
      rw [if_neg ht]
      rfl
    · rw [if_neg ht]
      rfl
  constructor
  · simp only [hookProgress]
    exact key _ _
  · intro h1 h2
    have ht : orFalsy r.total_bytes (orFalsy r.total_bytes_estimate 0) = 0 := by
      rcases h1 with h1 | h1 <;> rcases h2 with h2 | h2 <;> simp [orFalsy, h1, h2]
    simp only [hookProgress, ht]
    rw [if_neg (by simp)]

/-- C9 witness: a record with a missing total and a zero estimate yields
progress 0. -/
theorem progress_no_div_by_zero_witness :
    hookProgress ⟨"downloading", some 512, none, some 0⟩ = some 0 :=
  (progress_no_div_by_zero ⟨"downloading", some 512, none, some 0⟩).2
    (Or.inl rfl) (Or.inr rfl)

/-- C8: the byte-size formatter returns "0 B" on 0, "1.5 KB" on 1536 and
"1.0 MB" on 1048576; all three inputs and every intermediate value are exactly
representable binary floats, so the rational model computes the same strings. -/
theorem format_bytes_examples :
    format_bytes 0 = "0 B" ∧ format_bytes 1536 = "1.5 KB"
      ∧ format_bytes 1048576 = "1.0 MB" := by
  refine ⟨?_, ?_, ?_⟩
  · rw [format_bytes]
    norm_num
  · have hloop : formatBytesLoop 1536 0 = ((3 : ℚ)/2, 1) := by
      rw [formatBytesLoop, if_pos (by norm_num [bytesUnits]), formatBytesLoop,
        if_neg (by norm_num [bytesUnits])]
      norm_num
    rw [format_bytes, if_neg (by norm_num)]
    show formatOneDecimal (formatBytesLoop 1536 0).1 ++ " "
        ++ bytesUnits.getD (formatBytesLoop 1536 0).2 "" = "1.5 KB"
    rw [hloop]
    show formatOneDecimal ((3 : ℚ)/2) ++ " " ++ "KB" = "1.5 KB"
    have hr : roundHalfEven ((3 : ℚ)/2 * 10) = 15 := by
      have h15 : (3 : ℚ)/2 * 10 = 15 := by norm_num
      rw [h15, roundHalfEven]
      norm_num
    rw [formatOneDecimal]
    show toString ((roundHalfEven ((3 : ℚ)/2 * 10)).toNat / 10) ++ "."
        ++ toString ((roundHalfEven ((3 : ℚ)/2 * 10)).toNat % 10) ++ " " ++ "KB" = "1.5 KB"
    rw [hr]
    rfl
  · have hloop : formatBytesLoop 1048576 0 = ((1 : ℚ), 2) := by
      rw [formatBytesLoop, if_pos (by norm_num [bytesUnits])]
      have h1 : (1048576 : ℚ) / 1024 = 1024 := by norm_num
      rw [h1, formatBytesLoop, if_pos (by norm_num [bytesUnits])]
      have h2 : (1024 : ℚ) / 1024 = 1 := by norm_num
      rw [h2, formatBytesLoop, if_neg (by norm_num [bytesUnits])]
    rw [format_bytes, if_neg (by norm_num)]
    show formatOneDecimal (formatBytesLoop 1048576 0).1 ++ " "
        ++ bytesUnits.getD (formatBytesLoop 1048576 0).2 "" = "1.0 MB"
    rw [hloop]
    show formatOneDecimal ((1 : ℚ)) ++ " " ++ "MB" = "1.0 MB"
    have hr : roundHalfEven ((1 : ℚ) * 10) = 10 := by
      have h10 : (1 : ℚ) * 10 = 10 := by norm_num
      rw [h10, roundHalfEven]
      norm_num
    rw [formatOneDecimal]
    show toString ((roundHalfEven ((1 : ℚ) * 10)).toNat / 10) ++ "."
        ++ toString ((roundHalfEven ((1 : ℚ) * 10)).toNat % 10) ++ " " ++ "MB" = "1.0 MB"
    rw [hr]
    rfl

/-! ### Link extraction -/

theorem matchSchemeLen_some {cs : List Char} {k : Nat} (h : matchSchemeLen cs = some k) :
    (k = 8 ∧ cs.take 8 = "https://".data) ∨ (k = 7 ∧ cs.take 7 = "http://".data) := by
  unfold matchSchemeLen at h
  split_ifs at h with h1 h2
  · exact Or.inl ⟨(Option.some.inj h).symm, h1⟩
  · exact Or.inr ⟨(Option.some.inj h).symm, h2⟩

theorem takeWhile_S_replicate (rest : List Char) :
    rest.takeWhile (fun x => x == 'S')
      = List.replicate (rest.takeWhile (fun x => x == 'S')).length 'S' := by
  refine List.eq_replicate_of_mem ?_
  intro b hb
  simpa using List.mem_takeWhile_imp hb

theorem matchLinkLen_shape {cs : List Char} {n : Nat} (h : matchLinkLen cs = some n) :
    ∃ k m, matchSchemeLen cs = some k ∧ 1 ≤ m ∧ n = k + 1 + m
      ∧ cs.take n = cs.take k ++ '\\' :: List.replicate m 'S' := by
  unfold matchLinkLen at h
  rcases hs : matchSchemeLen cs with _ | k
  · simp only [hs] at h
    cases h
  · simp only [hs] at h
    rcases hd : cs.drop k with _ | ⟨c, rest⟩
    · simp only [hd] at h
      cases h
    · simp only [hd] at h
      split_ifs at h with hc hlen
      · have hn := Option.some.inj h
        refine ⟨k, (rest.takeWhile (fun x => x == 'S')).length, rfl,
          by omega, hn.symm, ?_⟩
        have hn' : n = k + (1 + (rest.takeWhile (fun x => x == 'S')).length) := by omega
        rw [hn', List.take_add, hd, Nat.add_comm 1 _, List.take_succ_cons, hc]
        have hpre : rest.takeWhile (fun x => x == 'S') <+: rest :=
          List.takeWhile_prefix _
        obtain ⟨t, ht⟩ := hpre
        have htake : rest.take (rest.takeWhile (fun x => x == 'S')).length
            = rest.takeWhile (fun x => x == 'S') := by
          have h0 : (rest.takeWhile (fun x => x == 'S') ++ t).take
              (rest.takeWhile (fun x => x == 'S')).length
              = rest.takeWhile (fun x => x == 'S') := List.take_left' rfl
          rw [ht] at h0
          exact h0
        exact congrArg (fun l => cs.take k ++ '\\' :: l)
          (htake.trans (takeWhile_S_replicate rest))

theorem findAllLinks_shape : ∀ (fuel : Nat) (cs m : List Char),
    m ∈ findAllLinks fuel cs → ∃ cs' n, matchLinkLen cs' = some n ∧ m = cs'.take n := by
  intro fuel
  induction fuel with
  | zero =>
      intro cs m h
      rw [findAllLinks] at h
      cases h
  | succ fuel ih =>
      intro cs m h
      cases cs with
      | nil =>
          rw [findAllLinks] at h
          cases h
      | cons c rest =>
          rw [findAllLinks] at h
          rcases hm : matchLinkLen (c :: rest) with _ | n
          · rw [hm] at h
            exact ih rest m h
          · rw [hm] at h
            rcases List.mem_cons.mp h with rfl | h'
            · exact ⟨c :: rest, n, hm, rfl⟩
            · exact ih ((c :: rest).drop n) m h'

/-- C10: link extraction returns exactly the substrings matching the compiled
pattern `https?://\\S+` — a scheme, then one literal backslash, then one or
more literal 'S' characters — so a conventional URL such as
"https://example.com", which has no backslash after the scheme, is never
extracted. -/
theorem extract_links_pattern :
    (∀ content m, m ∈ extract_links content →
      ∃ scheme k, (scheme = "https://" ∨ scheme = "http://") ∧ 1 ≤ k
        ∧ m = scheme ++ String.mk ('\\' :: List.replicate k 'S'))
    ∧ extract_links "https://example.com" = []
    ∧ extract_links "x see http://\\SS end" = ["http://\\SS"] := by
  refine ⟨?_, by decide, by decide⟩
  intro content m hm
  obtain ⟨mcs, hmem, rfl⟩ := List.mem_map.mp hm
  obtain ⟨cs', n, hmatch, rfl⟩ := findAllLinks_shape _ _ _ hmem
  obtain ⟨k, mm, hscheme, hmm, hn, htake⟩ := matchLinkLen_shape hmatch
  rcases matchSchemeLen_some hscheme with ⟨rfl, hpre⟩ | ⟨rfl, hpre⟩
  · refine ⟨"https://", mm, Or.inl rfl, hmm, ?_⟩
    rw [htake, hpre]
    apply str_data_inj
    rfl
  · refine ⟨"http://", mm, Or.inr rfl, hmm, ?_⟩
    rw [htake, hpre]
    apply str_data_inj
    rfl

/-- C10 witness: the one extracted link of a concrete comment text has the
scheme-backslash-S shape. -/
theorem extract_links_pattern_witness :
    ∃ scheme k, (scheme = "https://" ∨ scheme = "http://") ∧ 1 ≤ k
      ∧ "http://\\SS" = scheme ++ String.mk ('\\' :: List.replicate k 'S') :=
  extract_links_pattern.1 "x see http://\\SS end" "http://\\SS" (by decide)

end EagleGui
